import Mathlib

/-! Verification development for the CORD-19 explorer data pipeline
(src/app/app.py).

The pipeline under study consists of three pieces of the script:

* `load_data` — reads a CSV file with `pd.read_csv(engine='python',
  on_bad_lines='skip')`, coerces `publish_time` with
  `pd.to_datetime(errors='coerce')`, derives `year` and
  `abstract_word_count`, and drops rows missing `title` or `publish_time`;
* the year-range filter `df[(df['year'] >= a) & (df['year'] <= b)]`;
* the word-frequency tabulation
  `Counter(" ".join(df['title'].dropna().tolist()).lower().split()).most_common(n)`.

The embedding below models CSV cells as strings (with pandas' default
NA-value handling turning empty/NA cells into `none`), dates as a record
with a year, and `Counter.most_common` as first-occurrence counting
followed by a stable descending sort — which is precisely the
documented behaviour of `collections.Counter` (insertion-ordered dict)
and `heapq.nlargest` (equivalent to a stable `sorted(..., reverse=True)[:n]`).
-/

namespace App

/-- A calendar date, the result of a successful `pd.to_datetime` parse. -/
structure Date where
  year : Int
  month : Nat
  day : Nat
  deriving DecidableEq, Repr

/-- Split a character list on `'-'` (model of `"-".split` used to read ISO dates). -/
def splitDash : List Char → List (List Char)
  | [] => [[]]
  | c :: rest =>
    if c = '-' then [] :: splitDash rest
    else
      match splitDash rest with
      | [] => [[c]]
      | w :: ws => (c :: w) :: ws

/-- Read a non-empty all-digit character list as a natural number. -/
def parseDigits (cs : List Char) : Option Nat :=
  if cs ≠ [] ∧ cs.all (fun c => c.isDigit) then
    some (cs.foldl (fun n c => n * 10 + (c.toNat - 48)) 0)
  else none

/-- Model of `pd.to_datetime(errors='coerce')` on a single cell, restricted to
ISO `YYYY-MM-DD` dates and bare 4-digit years; any other text fails to parse
(`none`, pandas' `NaT`). The claims only depend on the parse
succeeding or failing, not on which textual formats succeed. -/
def parseDate (s : String) : Option Date :=
  match splitDash s.data with
  | [y, m, d] =>
    match parseDigits y, parseDigits m, parseDigits d with
    | some yn, some mn, some dn =>
      if 1 ≤ mn ∧ mn ≤ 12 ∧ 1 ≤ dn ∧ dn ≤ 31 then some ⟨(yn : Int), mn, dn⟩
      else none
    | _, _, _ => none
  | [y] =>
    match parseDigits y with
    | some yn => if y.length = 4 then some ⟨(yn : Int), 1, 1⟩ else none
    | none => none
  | _ => none

/-- Whitespace tokenization of a character list: maximal runs of
non-whitespace characters, in order. This is the behaviour of Python's
`str.split()` with no separator argument. -/
def wsTokens : List Char → List (List Char)
  | [] => []
  | [c] => if c.isWhitespace then [] else [[c]]
  | c :: d :: rest =>
    if c.isWhitespace then wsTokens (d :: rest)
    else if d.isWhitespace then [c] :: wsTokens (d :: rest)
    else
      match wsTokens (d :: rest) with
      | [] => [[c]]
      | t :: ts => (c :: t) :: ts

/-- Python's `str.split()` (no argument): whitespace tokenization. -/
def pySplit (s : String) : List String := (wsTokens s.data).map List.asString

/-- Python's `str.lower()` (modelled with `Char.toLower`). -/
def pyLower (s : String) : String := ⟨s.data.map Char.toLower⟩

/-- Python's `" ".join`: concatenation with a single separating space. -/
def joinSp : List String → String
  | [] => ""
  | [s] => s
  | s :: rest => s ++ " " ++ joinSp rest

/-- One parsed input row, with pandas' NA handling already applied per cell
(a missing or NA-valued cell is `none`). -/
structure Row where
  title : Option String
  authors : Option String
  journal : Option String
  abstract : Option String
  publish_time : Option String
  source : Option String
  deriving DecidableEq, Repr

/-- One record of the cleaned table: the original text fields, the
`publish_time` column after `pd.to_datetime(errors='coerce')`, and the two
derived columns `year` and `abstract_word_count`. -/
structure CleanedRecord where
  title : Option String
  authors : Option String
  journal : Option String
  abstract : Option String
  publish_time : Option Date
  source : Option String
  year : Option Int
  abstract_word_count : Nat
  deriving DecidableEq, Repr

/-- The per-row work of `load_data`: coerce `publish_time`, derive `year`
(`df['publish_time'].dt.year`) and `abstract_word_count`
(`df['abstract'].fillna("").apply(lambda x: len(x.split()))`). -/
def normalizeRow (r : Row) : CleanedRecord :=
  let pt := r.publish_time.bind parseDate
  { title := r.title
    authors := r.authors
    journal := r.journal
    abstract := r.abstract
    publish_time := pt
    source := r.source
    year := pt.map Date.year
    abstract_word_count := (pySplit (r.abstract.getD "")).length }

/-- The essential-fields filter `df.dropna(subset=['title', 'publish_time'])`:
keep a record iff both `title` and the coerced `publish_time` are non-null. -/
def keepRow (rec : CleanedRecord) : Bool :=
  rec.title.isSome && rec.publish_time.isSome

/-- `load_data` on already-parsed rows: derive columns, then drop rows
missing essential fields (order preserved by `List.filter`). -/
def load_data_rows (rows : List Row) : List CleanedRecord :=
  (rows.map normalizeRow).filter keepRow

/-- pandas' default NA values (the subset relevant here; the essential member
is the empty string, which `pd.read_csv` reads as NaN by default). -/
def naValues : List String :=
  ["", "#N/A", "N/A", "NA", "NULL", "NaN", "None", "n/a", "nan", "null"]

/-- Read one CSV cell the way `pd.read_csv` does by default: NA-valued text
becomes null. -/
def naCell (s : String) : Option String :=
  if s ∈ naValues then none else some s

/-- Position of a column name in the header, if present. -/
def colIdx (header : List String) (name : String) : Option Nat :=
  match header with
  | [] => none
  | h :: t => if h = name then some 0 else (colIdx t name).map (· + 1)

/-- Value of the named column in a row of cells: `none` when the column is
absent from the header, when the row is too short (pandas pads short rows
with NaN), or when the cell holds an NA value. -/
def lookupField (header cells : List String) (name : String) : Option String :=
  match colIdx header name with
  | none => none
  | some i =>
    match cells.get? i with
    | none => none
    | some s => naCell s

/-- Assemble a `Row` from header and cells. The app reads the source column
under the name `source_x`. -/
def mkRow (header cells : List String) : Row :=
  { title := lookupField header cells "title"
    authors := lookupField header cells "authors"
    journal := lookupField header cells "journal"
    abstract := lookupField header cells "abstract"
    publish_time := lookupField header cells "publish_time"
    source := lookupField header cells "source_x" }

/-- A CSV file that was successfully opened and read: a header line plus
data lines, each already split into cells. -/
structure Csv where
  header : List String
  rows : List (List String)
  deriving DecidableEq, Repr

/-- The rows `pd.read_csv(engine='python', on_bad_lines='skip')` yields:
lines with more cells than the header are bad lines and are skipped
silently; the remaining lines are parsed against the header. -/
def parsedRows (csv : Csv) : List Row :=
  (csv.rows.filter (fun r => r.length ≤ csv.header.length)).map (mkRow csv.header)

/-- The exception `load_data` can raise once the file has been read: a
`KeyError` from accessing a column that the header does not name. -/
inductive LoadError where
  | missingColumn (name : String)
  deriving DecidableEq, Repr

/-- `load_data` on a readable file. The column accesses happen in source
order: `df['publish_time']`, `df['abstract']`, then
`df.dropna(subset=['title', 'publish_time'])`; each raises `KeyError` if its
column is absent. Otherwise the cleaned table is returned. -/
def load_data (csv : Csv) : Except LoadError (List CleanedRecord) :=
  match colIdx csv.header "publish_time" with
  | none => .error (.missingColumn "publish_time")
  | some _ =>
    match colIdx csv.header "abstract" with
    | none => .error (.missingColumn "abstract")
    | some _ =>
      match colIdx csv.header "title" with
      | none => .error (.missingColumn "title")
      | some _ => .ok (load_data_rows (parsedRows csv))

/-- The year-range predicate of `df[(df['year'] >= a) & (df['year'] <= b)]`;
a null `year` compares false, as NaN does in pandas. -/
def yearInRange (a b : Int) (rec : CleanedRecord) : Bool :=
  match rec.year with
  | some y => decide (a ≤ y) && decide (y ≤ b)
  | none => false

/-- The year-range filter `df[(df['year'] >= a) & (df['year'] <= b)]`. -/
def filter_by_year (table : List CleanedRecord) (a b : Int) : List CleanedRecord :=
  table.filter (yearInRange a b)

/-- The token stream of
`" ".join(df['title'].dropna().tolist()).lower().split()`. -/
def title_tokens (table : List CleanedRecord) : List String :=
  pySplit (pyLower (joinSp ((table.map (fun r => r.title)).filterMap id)))

/-- First-occurrence deduplication (`seen` accumulates keys already kept):
the key order of a `collections.Counter` built from a list, since a
`Counter` is an insertion-ordered dict. -/
def dedupFirstAux (seen : List String) : List String → List String
  | [] => []
  | t :: rest =>
    if t ∈ seen then dedupFirstAux seen rest
    else t :: dedupFirstAux (t :: seen) rest

/-- The distinct elements of a list, in order of first occurrence. -/
def dedupFirst (l : List String) : List String := dedupFirstAux [] l

/-- `collections.Counter(toks)` as an association list: each distinct token,
in first-occurrence order, with its number of occurrences. -/
def tabulate (toks : List String) : List (String × Nat) :=
  (dedupFirst toks).map (fun t => (t, toks.count t))

/-- Insert an entry into a count-descending list, after all entries of
greater or equal count (the stable position). -/
def insertDesc (x : String × Nat) : List (String × Nat) → List (String × Nat)
  | [] => [x]
  | y :: ys => if x.2 ≤ y.2 then y :: insertDesc x ys else x :: y :: ys

/-- Stable insertion sort by count, descending. -/
def sortDesc (l : List (String × Nat)) : List (String × Nat) :=
  l.foldl (fun acc x => insertDesc x acc) []

/-- `Counter.most_common(n)`: the n highest-count entries. Python documents
`heapq.nlargest(n, it, key)` as equivalent to a stable
`sorted(it, key=key, reverse=True)[:n]`. -/
def mostCommon (n : Nat) (l : List (String × Nat)) : List (String × Nat) :=
  (sortDesc l).take n

/-- The top-words computation of the app, generalized over the table and n:
`Counter(" ".join(df['title'].dropna().tolist()).lower().split()).most_common(n)`. -/
def common_words (table : List CleanedRecord) (n : Nat) : List (String × Nat) :=
  mostCommon n (tabulate (title_tokens table))

/-- Modelled from the spec: the reference definition of
`top_words(table, title, n)` — concatenate the title field across all
records treating null as the empty string, with a single separating space,
lower-case, split on whitespace, count occurrences per distinct token, and
return the n highest-count tokens. -/
def top_words_spec (table : List CleanedRecord) (n : Nat) : List (String × Nat) :=
  mostCommon n (tabulate (pySplit (pyLower (joinSp (table.map (fun r => r.title.getD ""))))))

/-- Sample cleaned table used by concrete witnesses. -/
def exTable : List CleanedRecord :=
  [ { title := some "covid study", authors := none, journal := some "J1", abstract := none,
      publish_time := some ⟨2019, 1, 1⟩, source := none, year := some 2019,
      abstract_word_count := 0 },
    { title := some "covid vaccine", authors := some "A", journal := none, abstract := some "x y",
      publish_time := some ⟨2020, 3, 1⟩, source := none, year := some 2020,
      abstract_word_count := 2 },
    { title := some "vaccine trial", authors := none, journal := none, abstract := none,
      publish_time := some ⟨2021, 6, 2⟩, source := none, year := some 2021,
      abstract_word_count := 0 } ]

/-- Sample CSV used by concrete witnesses: one good row, one row with an
empty title, one with an unparseable date, and one bad line (too many
fields). -/
def exCsv : Csv :=
  { header := ["title", "abstract", "publish_time", "authors", "journal"]
    rows := [["Covid study", "a b c", "2020-03-01", "A", "J"],
             ["", "x", "2021-01-01", "B", "J"],
             ["Vaccine", "y z", "garbage", "C", "J"],
             ["Too", "many", "fields", "x", "y", "z", "w"]] }

/-- Sample parsed row with a missing abstract, used by a witness. -/
def exRowNoAbstract : Row :=
  { title := some "t", authors := none, journal := none, abstract := none,
    publish_time := some "2020-01-01", source := none }

theorem normalizeRow_title (r : Row) : (normalizeRow r).title = r.title := rfl

theorem normalizeRow_publish_time (r : Row) :
    (normalizeRow r).publish_time = r.publish_time.bind parseDate := rfl

theorem normalizeRow_year (r : Row) :
    (normalizeRow r).year = (r.publish_time.bind parseDate).map Date.year := rfl

theorem lookupField_ne_empty {header cells : List String} {name s : String}
    (h : lookupField header cells name = some s) : s ≠ "" := by
  unfold lookupField at h
  split at h
  · exact absurd h (by simp)
  · split at h
    · exact absurd h (by simp)
    · unfold naCell at h
      split at h
      · exact absurd h (by simp)
      · rename_i hs
        rw [Option.some.injEq] at h
        subst h
        intro he
        subst he
        exact hs (by decide)

theorem parsedRows_title_ne_empty {csv : Csv} {row : Row} (hrow : row ∈ parsedRows csv) :
    row.title ≠ some "" := by
  obtain ⟨cells, -, rfl⟩ := List.mem_map.mp hrow
  intro h
  exact lookupField_ne_empty h rfl

theorem load_data_ok_eq {csv : Csv} {recs : List CleanedRecord}
    (h : load_data csv = Except.ok recs) : recs = load_data_rows (parsedRows csv) := by
  unfold load_data at h
  split at h
  · exact absurd h (by simp)
  · split at h
    · exact absurd h (by simp)
    · split at h
      · exact absurd h (by simp)
      · rw [Except.ok.injEq] at h
        exact h.symm

/-- C1: in any table returned by `load_data`, every record has a non-empty
title and a successfully derived integer year; and any parsed row with a
null or empty title or an unparseable `publish_time` is excluded. -/
theorem load_data_essential_field_invariant (csv : Csv) (recs : List CleanedRecord)
    (h : load_data csv = Except.ok recs) :
    (∀ rec ∈ recs, (∃ s, rec.title = some s ∧ s ≠ "") ∧ rec.year.isSome = true)
    ∧ (∀ row ∈ parsedRows csv,
        (row.title = none ∨ row.title = some "" ∨ row.publish_time.bind parseDate = none) →
        normalizeRow row ∉ recs) := by
  have hrecs := load_data_ok_eq h
  subst hrecs
  constructor
  · intro rec hrec
    rw [load_data_rows, List.mem_filter] at hrec
    obtain ⟨hmem, hkeep⟩ := hrec
    rw [keepRow, Bool.and_eq_true] at hkeep
    obtain ⟨row, hrow, rfl⟩ := List.mem_map.mp hmem
    constructor
    · obtain ⟨s, hs⟩ := Option.isSome_iff_exists.mp hkeep.1
      rw [normalizeRow_title] at hs
      refine ⟨s, by rw [normalizeRow_title, hs], ?_⟩
      intro he
      subst he
      exact parsedRows_title_ne_empty hrow hs
    · have hpt := hkeep.2
      rw [normalizeRow_publish_time] at hpt
      obtain ⟨d, hd⟩ := Option.isSome_iff_exists.mp hpt
      rw [normalizeRow_year, hd]
      rfl
  · intro row hrow hbad hmem
    rw [load_data_rows, List.mem_filter] at hmem
    have hkeep := hmem.2
    rw [keepRow, Bool.and_eq_true] at hkeep
    rcases hbad with h1 | h1 | h1
    · have := hkeep.1
      rw [normalizeRow_title, h1] at this
      simp at this
    · exact parsedRows_title_ne_empty hrow h1
    · have := hkeep.2
      rw [normalizeRow_publish_time, h1] at this
      simp at this

theorem load_data_essential_field_invariant_witness :
    load_data exCsv = Except.ok (load_data_rows (parsedRows exCsv))
    ∧ ((∀ rec ∈ load_data_rows (parsedRows exCsv),
          (∃ s, rec.title = some s ∧ s ≠ "") ∧ rec.year.isSome = true)
       ∧ (∀ row ∈ parsedRows exCsv,
            (row.title = none ∨ row.title = some "" ∨ row.publish_time.bind parseDate = none) →
            normalizeRow row ∉ load_data_rows (parsedRows exCsv))) :=
  ⟨rfl, load_data_essential_field_invariant exCsv _ rfl⟩

/-- C2 as stated is refuted by a readable file whose header lacks the
`publish_time` column: `load_data` propagates a missing-column error even
though the file could be opened and read. -/
theorem load_data_error_on_readable_input :
    load_data { header := ["title", "abstract"], rows := [["a", "b"]] }
      = Except.error (LoadError.missingColumn "publish_time") := rfl

theorem colIdx_isSome_of_mem {header : List String} {name : String} (h : name ∈ header) :
    (colIdx header name).isSome = true := by
  induction header with
  | nil => simp at h
  | cons x t ih =>
    by_cases hx : x = name
    · simp [colIdx, hx]
    · rcases List.mem_cons.mp h with h' | hmem
      · exact absurd h'.symm hx
      · obtain ⟨i, hi⟩ := Option.isSome_iff_exists.mp (ih hmem)
        simp [colIdx, hx, hi]

/-- C2 amended: for every input file that can be opened and read and whose
header names the `publish_time`, `abstract` and `title` columns, `load_data`
raises no exception: bad lines are skipped and unparseable dates become null
years, all absorbed into the returned table. -/
theorem load_data_ok_of_columns (csv : Csv)
    (h1 : "publish_time" ∈ csv.header) (h2 : "abstract" ∈ csv.header)
    (h3 : "title" ∈ csv.header) :
    load_data csv = Except.ok (load_data_rows (parsedRows csv)) := by
  obtain ⟨i1, e1⟩ := Option.isSome_iff_exists.mp (colIdx_isSome_of_mem h1)
  obtain ⟨i2, e2⟩ := Option.isSome_iff_exists.mp (colIdx_isSome_of_mem h2)
  obtain ⟨i3, e3⟩ := Option.isSome_iff_exists.mp (colIdx_isSome_of_mem h3)
  unfold load_data
  rw [e1, e2, e3]

theorem load_data_ok_of_columns_witness :
    ("publish_time" ∈ exCsv.header ∧ "abstract" ∈ exCsv.header ∧ "title" ∈ exCsv.header)
    ∧ load_data exCsv = Except.ok (load_data_rows (parsedRows exCsv)) :=
  ⟨⟨by decide, by decide, by decide⟩,
   load_data_ok_of_columns exCsv (by decide) (by decide) (by decide)⟩

/-- C10: every record surviving `load_data` carries the `title`, `authors`,
`journal`, `abstract` and source fields of its input row unchanged; the only
per-row modifications are the coerced `publish_time` and the two derived
fields `year` and `abstract_word_count`. -/
theorem load_data_frame_condition (csv : Csv) (recs : List CleanedRecord)
    (h : load_data csv = Except.ok recs) :
    ∀ rec ∈ recs, ∃ row ∈ parsedRows csv,
      rec.title = row.title ∧ rec.authors = row.authors ∧ rec.journal = row.journal
      ∧ rec.abstract = row.abstract ∧ rec.source = row.source
      ∧ rec.publish_time = row.publish_time.bind parseDate
      ∧ rec.year = (row.publish_time.bind parseDate).map Date.year
      ∧ rec.abstract_word_count = (pySplit (row.abstract.getD "")).length := by
  have hrecs := load_data_ok_eq h
  subst hrecs
  intro rec hrec
  rw [load_data_rows, List.mem_filter] at hrec
  obtain ⟨row, hrow, rfl⟩ := List.mem_map.mp hrec.1
  exact ⟨row, hrow, rfl, rfl, rfl, rfl, rfl, rfl, rfl, rfl⟩

theorem load_data_frame_condition_witness :
    load_data exCsv = Except.ok (load_data_rows (parsedRows exCsv))
    ∧ (∀ rec ∈ load_data_rows (parsedRows exCsv), ∃ row ∈ parsedRows exCsv,
        rec.title = row.title ∧ rec.authors = row.authors ∧ rec.journal = row.journal
        ∧ rec.abstract = row.abstract ∧ rec.source = row.source
        ∧ rec.publish_time = row.publish_time.bind parseDate
        ∧ rec.year = (row.publish_time.bind parseDate).map Date.year
        ∧ rec.abstract_word_count = (pySplit (row.abstract.getD "")).length) :=
  ⟨rfl, load_data_frame_condition exCsv _ rfl⟩

/-- C5: `filter_by_year(table, a, b)` contains exactly the records of
`table` with `a ≤ year ≤ b`, each occurrence exactly once, in source order;
and the cleaning step of `load_data` also preserves the source order of
surviving records. -/
theorem filter_by_year_correct_and_order_preserving
    (table : List CleanedRecord) (a b : Int) (_h : a ≤ b) :
    (∀ rec ∈ filter_by_year table a b, ∃ y, rec.year = some y ∧ a ≤ y ∧ y ≤ b)
    ∧ (∀ rec : CleanedRecord, (∃ y, rec.year = some y ∧ a ≤ y ∧ y ≤ b) →
        (filter_by_year table a b).count rec = table.count rec)
    ∧ (filter_by_year table a b).Sublist table
    ∧ (∀ csv recs, load_data csv = Except.ok recs →
        recs.Sublist ((parsedRows csv).map normalizeRow)) := by
  refine ⟨?_, ?_, List.filter_sublist table, ?_⟩
  · intro rec hrec
    have hp := (List.mem_filter.mp hrec).2
    cases hy : rec.year with
    | none => simp [yearInRange, hy] at hp
    | some y =>
      refine ⟨y, rfl, ?_, ?_⟩ <;> · simp [yearInRange, hy] at hp; omega
  · rintro rec ⟨y, hy, h1, h2⟩
    apply List.count_filter
    simp [yearInRange, hy, h1, h2]
  · intro csv recs h
    unfold load_data at h
    split at h
    · exact absurd h (by simp)
    · split at h
      · exact absurd h (by simp)
      · split at h
        · exact absurd h (by simp)
        · rw [Except.ok.injEq] at h
          subst h
          exact List.filter_sublist _

theorem filter_by_year_correct_witness :
    (2019 : Int) ≤ 2020 ∧
    ((∀ rec ∈ filter_by_year exTable 2019 2020, ∃ y, rec.year = some y ∧ 2019 ≤ y ∧ y ≤ 2020)
     ∧ (∀ rec : CleanedRecord, (∃ y, rec.year = some y ∧ (2019 : Int) ≤ y ∧ y ≤ 2020) →
         (filter_by_year exTable 2019 2020).count rec = exTable.count rec)
     ∧ (filter_by_year exTable 2019 2020).Sublist exTable
     ∧ (∀ csv recs, load_data csv = Except.ok recs →
         recs.Sublist ((parsedRows csv).map normalizeRow))) :=
  ⟨by decide, filter_by_year_correct_and_order_preserving exTable 2019 2020 (by decide)⟩

/-- C7: for every parsed row, the derived `abstract_word_count` is the
number of whitespace tokens of the abstract, a missing abstract counting as
the empty string; as a natural number it is always ≥ 0. -/
theorem abstract_word_count_correct (row : Row) :
    (normalizeRow row).abstract_word_count = (pySplit (row.abstract.getD "")).length
    ∧ (row.abstract = none → (normalizeRow row).abstract_word_count = 0) := by
  refine ⟨rfl, fun h => ?_⟩
  simp [normalizeRow, h, pySplit, wsTokens]

theorem abstract_word_count_correct_witness :
    (normalizeRow exRowNoAbstract).abstract_word_count
      = (pySplit (exRowNoAbstract.abstract.getD "")).length
    ∧ (normalizeRow exRowNoAbstract).abstract_word_count = 0 :=
  ⟨(abstract_word_count_correct exRowNoAbstract).1,
   (abstract_word_count_correct exRowNoAbstract).2 rfl⟩

/-- C8: `filter_by_year` is idempotent. -/
theorem filter_by_year_idempotent (table : List CleanedRecord) (a b : Int) (_h : a ≤ b) :
    filter_by_year (filter_by_year table a b) a b = filter_by_year table a b := by
  simp [filter_by_year, List.filter_filter]

theorem filter_by_year_idempotent_witness :
    (2019 : Int) ≤ 2020 ∧
    filter_by_year (filter_by_year exTable 2019 2020) 2019 2020
      = filter_by_year exTable 2019 2020 :=
  ⟨by decide, filter_by_year_idempotent exTable 2019 2020 (by decide)⟩

/-- C9: a year range entirely outside the year values present in the table
yields the empty subsequence (and, the filter being a total function, no
error). -/
theorem filter_by_year_outside_span (table : List CleanedRecord) (a b : Int) (_h : a ≤ b)
    (hout : ∀ rec ∈ table, ∀ y, rec.year = some y → y < a ∨ b < y) :
    filter_by_year table a b = [] := by
  rw [filter_by_year, List.filter_eq_nil_iff]
  intro rec hrec
  cases hy : rec.year with
  | none => simp [yearInRange, hy]
  | some y =>
    have := hout rec hrec y hy
    simp [yearInRange, hy]
    omega

theorem filter_by_year_outside_span_witness :
    ((1900 : Int) ≤ 1910
     ∧ (∀ rec ∈ exTable, ∀ y, rec.year = some y → y < 1900 ∨ 1910 < y))
    ∧ filter_by_year exTable 1900 1910 = [] :=
  have hout : ∀ rec ∈ exTable, ∀ y, rec.year = some y → y < 1900 ∨ 1910 < y := by
    intro rec hrec y hy
    simp only [exTable, List.mem_cons, List.not_mem_nil, or_false] at hrec
    rcases hrec with rfl | rfl | rfl <;> simp_all <;> omega
  ⟨⟨by decide, hout⟩, filter_by_year_outside_span exTable 1900 1910 (by decide) hout⟩

theorem wsTokens_ws_cons {c : Char} (hc : c.isWhitespace = true) (l : List Char) :
    wsTokens (c :: l) = wsTokens l := by
  cases l with
  | nil => simp [wsTokens, hc]
  | cons d rest => simp [wsTokens, hc]

theorem wsTokens_nonws_head {d : Char} (hd : d.isWhitespace = false) (rest : List Char) :
    ∃ w ws, wsTokens (d :: rest) = (d :: w) :: ws := by
  induction rest generalizing d with
  | nil => exact ⟨[], [], by simp [wsTokens, hd]⟩
  | cons e rest' ih =>
    cases he : e.isWhitespace with
    | true => exact ⟨[], wsTokens (e :: rest'), by simp [wsTokens, hd, he]⟩
    | false =>
      obtain ⟨w, ws, hw⟩ := ih he
      exact ⟨e :: w, ws, by simp [wsTokens, hd, he, hw]⟩

theorem wsTokens_append_sep (a b : List Char) :
    wsTokens (a ++ ' ' :: b) = wsTokens a ++ wsTokens b := by
  have hsp : (' ').isWhitespace = true := by decide
  induction a with
  | nil =>
    rw [List.nil_append, wsTokens_ws_cons hsp]
    rfl
  | cons c a' ih =>
    cases hc : c.isWhitespace with
    | true =>
      rw [show (c :: a') ++ ' ' :: b = c :: (a' ++ ' ' :: b) from rfl,
        wsTokens_ws_cons hc, ih, wsTokens_ws_cons hc]
    | false =>
      cases a' with
      | nil =>
        simp [wsTokens, hc, wsTokens_ws_cons hsp]
      | cons d a'' =>
        cases hd : d.isWhitespace with
        | true =>
          simp only [List.cons_append] at ih ⊢
          simp [wsTokens, hc, hd, ih]
        | false =>
          obtain ⟨w, ws, hw⟩ := wsTokens_nonws_head hd a''
          have hw' : wsTokens (d :: (a'' ++ ' ' :: b)) = (d :: w) :: (ws ++ wsTokens b) := by
            rw [show d :: (a'' ++ ' ' :: b) = (d :: a'') ++ ' ' :: b from rfl, ih, hw]
            rfl
          simp [wsTokens, hc, hd, hw, hw']

theorem data_append (s t : String) : (s ++ t).data = s.data ++ t.data := rfl

theorem lowerTokens_joinSp (l : List String) :
    wsTokens ((joinSp l).data.map Char.toLower)
      = (l.map (fun s => wsTokens (s.data.map Char.toLower))).flatten := by
  induction l with
  | nil => rfl
  | cons s rest ih =>
    cases rest with
    | nil => simp [joinSp]
    | cons s' rest' =>
      have e : (joinSp (s :: s' :: rest')).data
          = s.data ++ ' ' :: (joinSp (s' :: rest')).data := by
        show (s ++ " " ++ joinSp (s' :: rest')).data = _
        rw [data_append, data_append]
        simp [List.append_assoc]
      rw [e, List.map_append, List.map_cons,
        show Char.toLower ' ' = ' ' from rfl, wsTokens_append_sep, ih]
      simp

theorem tokens_dropna_eq_fillna (l : List (Option String)) :
    wsTokens ((joinSp (l.filterMap id)).data.map Char.toLower)
      = wsTokens ((joinSp (l.map (fun o => o.getD ""))).data.map Char.toLower) := by
  rw [lowerTokens_joinSp, lowerTokens_joinSp]
  induction l with
  | nil => rfl
  | cons o rest ih =>
    cases o with
    | none =>
      have h0 : wsTokens (("" : String).data.map Char.toLower) = [] := rfl
      simpa [List.filterMap_cons, h0] using ih
    | some s => simp [List.filterMap_cons, ih]

theorem title_tokens_eq_reference (table : List CleanedRecord) :
    title_tokens table
      = pySplit (pyLower (joinSp (table.map (fun r => r.title.getD "")))) := by
  unfold title_tokens pySplit pyLower
  have h := tokens_dropna_eq_fillna (table.map (fun r => r.title))
  rw [List.map_map] at h
  exact congrArg (List.map List.asString) h

theorem mem_dedupFirstAux {a : String} {seen l : List String}
    (h : a ∈ dedupFirstAux seen l) : a ∈ l ∧ a ∉ seen := by
  induction l generalizing seen with
  | nil => simp [dedupFirstAux] at h
  | cons t rest ih =>
    simp only [dedupFirstAux] at h
    by_cases ht : t ∈ seen
    · rw [if_pos ht] at h
      obtain ⟨h1, h2⟩ := ih h
      exact ⟨List.mem_cons_of_mem t h1, h2⟩
    · rw [if_neg ht] at h
      rcases List.mem_cons.mp h with rfl | h'
      · exact ⟨List.mem_cons_self a rest, ht⟩
      · obtain ⟨h1, h2⟩ := ih h'
        exact ⟨List.mem_cons_of_mem t h1, fun hs => h2 (List.mem_cons_of_mem t hs)⟩

theorem mem_dedupFirstAux_of {a : String} {seen l : List String}
    (hl : a ∈ l) (hs : a ∉ seen) : a ∈ dedupFirstAux seen l := by
  induction l generalizing seen with
  | nil => simp at hl
  | cons t rest ih =>
    simp only [dedupFirstAux]
    by_cases ht : t ∈ seen
    · rw [if_pos ht]
      rcases List.mem_cons.mp hl with rfl | h'
      · exact absurd ht hs
      · exact ih h' hs
    · rw [if_neg ht]
      rcases List.mem_cons.mp hl with rfl | h'
      · exact List.mem_cons_self _ _
      · by_cases hat : a = t
        · subst hat
          exact List.mem_cons_self _ _
        · have hnotin : a ∉ t :: seen := by
            intro hmem
            rcases List.mem_cons.mp hmem with h2 | h2
            · exact hat h2
            · exact hs h2
          exact List.mem_cons_of_mem _ (ih h' hnotin)

theorem mem_dedupFirst {a : String} {l : List String} : a ∈ dedupFirst l ↔ a ∈ l :=
  ⟨fun h => (mem_dedupFirstAux h).1, fun h => mem_dedupFirstAux_of h (by simp)⟩

theorem dedupFirstAux_pairwise_indexOf (l : List String) :
    ∀ seen, (dedupFirstAux seen l).Pairwise (fun x y => l.indexOf x < l.indexOf y) := by
  induction l with
  | nil => intro seen; simp [dedupFirstAux]
  | cons t rest ih =>
    intro seen
    simp only [dedupFirstAux]
    by_cases ht : t ∈ seen
    · rw [if_pos ht]
      refine (ih seen).imp_of_mem ?_
      intro a b ha hb hab
      have hat : t ≠ a := fun he => (mem_dedupFirstAux ha).2 (he ▸ ht)
      have hbt : t ≠ b := fun he => (mem_dedupFirstAux hb).2 (he ▸ ht)
      rw [List.indexOf_cons_ne _ hat, List.indexOf_cons_ne _ hbt]
      omega
    · rw [if_neg ht]
      refine List.pairwise_cons.mpr ⟨?_, ?_⟩
      · intro b hb
        have hbt : t ≠ b :=
          fun he => (mem_dedupFirstAux hb).2 (he ▸ List.mem_cons_self t seen)
        rw [List.indexOf_cons_self, List.indexOf_cons_ne _ hbt]
        omega
      · refine (ih (t :: seen)).imp_of_mem ?_
        intro a b ha hb hab
        have hat : t ≠ a :=
          fun he => (mem_dedupFirstAux ha).2 (he ▸ List.mem_cons_self t seen)
        have hbt : t ≠ b :=
          fun he => (mem_dedupFirstAux hb).2 (he ▸ List.mem_cons_self t seen)
        rw [List.indexOf_cons_ne _ hat, List.indexOf_cons_ne _ hbt]
        omega

theorem tabulate_pairwise_indexOf (toks : List String) :
    (tabulate toks).Pairwise (fun p q => toks.indexOf p.1 < toks.indexOf q.1) := by
  unfold tabulate
  rw [List.pairwise_map]
  exact dedupFirstAux_pairwise_indexOf toks []

theorem mem_insertDesc {z x : String × Nat} {l : List (String × Nat)} :
    z ∈ insertDesc x l ↔ z = x ∨ z ∈ l := by
  induction l with
  | nil => simp [insertDesc]
  | cons y ys ih =>
    by_cases h : x.2 ≤ y.2
    · simp only [insertDesc, if_pos h, List.mem_cons, ih]
      tauto
    · simp only [insertDesc, if_neg h, List.mem_cons]

theorem insertDesc_perm (x : String × Nat) (l : List (String × Nat)) :
    (insertDesc x l).Perm (x :: l) := by
  induction l with
  | nil => exact List.Perm.refl _
  | cons y ys ih =>
    by_cases h : x.2 ≤ y.2
    · simp only [insertDesc, if_pos h]
      exact (ih.cons y).trans (List.Perm.swap x y ys)
    · simp only [insertDesc, if_neg h]
      exact List.Perm.refl _

theorem insertDesc_sorted {x : String × Nat} {l : List (String × Nat)}
    (hl : l.Pairwise (fun p q => q.2 ≤ p.2)) :
    (insertDesc x l).Pairwise (fun p q => q.2 ≤ p.2) := by
  induction l with
  | nil => simp [insertDesc]
  | cons y ys ih =>
    rcases List.pairwise_cons.mp hl with ⟨hhead, htail⟩
    by_cases h : x.2 ≤ y.2
    · simp only [insertDesc, if_pos h]
      refine List.pairwise_cons.mpr ⟨?_, ih htail⟩
      intro z hz
      rcases mem_insertDesc.mp hz with rfl | hz'
      · exact h
      · exact hhead z hz'
    · simp only [insertDesc, if_neg h]
      refine List.pairwise_cons.mpr ⟨?_, hl⟩
      intro z hz
      rcases List.mem_cons.mp hz with rfl | hz'
      · omega
      · have := hhead z hz'
        omega

theorem insertDesc_pairwise {S : String × Nat → String × Nat → Prop}
    (hS : ∀ p q, p.2 ≠ q.2 → S p q) {x : String × Nat} {l : List (String × Nat)}
    (hsort : l.Pairwise (fun p q => q.2 ≤ p.2)) (hl : l.Pairwise S)
    (hx : ∀ y ∈ l, S y x) :
    (insertDesc x l).Pairwise S := by
  induction l with
  | nil => simp [insertDesc]
  | cons y ys ih =>
    rcases List.pairwise_cons.mp hsort with ⟨hsh, hst⟩
    rcases List.pairwise_cons.mp hl with ⟨hlh, hlt⟩
    by_cases h : x.2 ≤ y.2
    · simp only [insertDesc, if_pos h]
      refine List.pairwise_cons.mpr
        ⟨?_, ih hst hlt (fun z hz => hx z (List.mem_cons_of_mem y hz))⟩
      intro z hz
      rcases mem_insertDesc.mp hz with rfl | hz'
      · exact hx y (List.mem_cons_self y ys)
      · exact hlh z hz'
    · simp only [insertDesc, if_neg h]
      refine List.pairwise_cons.mpr ⟨?_, hl⟩
      intro z hz
      rcases List.mem_cons.mp hz with rfl | hz'
      · exact hS x z (by omega)
      · have := hsh z hz'
        exact hS x z (by omega)

theorem foldl_insertDesc_perm (l : List (String × Nat)) :
    ∀ acc, (l.foldl (fun acc x => insertDesc x acc) acc).Perm (acc ++ l) := by
  induction l with
  | nil => intro acc; simp
  | cons x xs ih =>
    intro acc
    rw [List.foldl_cons]
    refine (ih (insertDesc x acc)).trans ?_
    exact ((insertDesc_perm x acc).append_right xs).trans List.perm_middle.symm

theorem sortDesc_perm (l : List (String × Nat)) : (sortDesc l).Perm l := by
  simpa using foldl_insertDesc_perm l []

theorem foldl_insertDesc_sorted (l : List (String × Nat)) :
    ∀ acc, acc.Pairwise (fun p q => q.2 ≤ p.2) →
      (l.foldl (fun acc x => insertDesc x acc) acc).Pairwise (fun p q => q.2 ≤ p.2) := by
  induction l with
  | nil => intro acc h; simpa using h
  | cons x xs ih =>
    intro acc h
    rw [List.foldl_cons]
    exact ih _ (insertDesc_sorted h)

theorem sortDesc_sorted (l : List (String × Nat)) :
    (sortDesc l).Pairwise (fun p q => q.2 ≤ p.2) :=
  foldl_insertDesc_sorted l [] (by simp)

theorem foldl_insertDesc_pairwise {S : String × Nat → String × Nat → Prop}
    (hS : ∀ p q, p.2 ≠ q.2 → S p q) :
    ∀ (l acc : List (String × Nat)),
      acc.Pairwise (fun p q => q.2 ≤ p.2) → acc.Pairwise S → l.Pairwise S →
      (∀ x ∈ l, ∀ y ∈ acc, S y x) →
      (l.foldl (fun acc x => insertDesc x acc) acc).Pairwise S := by
  intro l
  induction l with
  | nil =>
    intro acc _ h2 _ _
    simpa using h2
  | cons x xs ih =>
    intro acc hsort hS' hlS hcross
    rcases List.pairwise_cons.mp hlS with ⟨hlh, hlt⟩
    rw [List.foldl_cons]
    refine ih (insertDesc x acc) (insertDesc_sorted hsort)
      (insertDesc_pairwise hS hsort hS'
        (fun y hy => hcross x (List.mem_cons_self x xs) y hy))
      hlt ?_
    intro z hz y hy
    rcases mem_insertDesc.mp hy with rfl | hy'
    · exact hlh z hz
    · exact hcross z (List.mem_cons_of_mem x hz) y hy'

theorem sortDesc_pairwise {S : String × Nat → String × Nat → Prop}
    (hS : ∀ p q, p.2 ≠ q.2 → S p q) {l : List (String × Nat)} (hl : l.Pairwise S) :
    (sortDesc l).Pairwise S :=
  foldl_insertDesc_pairwise hS l [] (by simp) (by simp) hl (by simp)

theorem count_filter_split (t : String) (seen : List String) (h : t ∉ seen) :
    ∀ rest : List String,
      (rest.filter (fun a => !decide (a ∈ seen))).length
        = rest.count t + (rest.filter (fun a => !decide (a ∈ t :: seen))).length := by
  intro rest
  induction rest with
  | nil => simp
  | cons x rest' ih =>
    rw [List.filter_cons, List.filter_cons, List.count_cons]
    by_cases hxt : x = t
    · subst hxt
      have e1 : (!decide (x ∈ seen)) = true := by simp [h]
      have e2 : ¬((!decide (x ∈ x :: seen)) = true) := by simp
      have e3 : (if (x == x) = true then 1 else 0) = 1 := by simp
      rw [if_pos e1, if_neg e2, List.length_cons, e3]
      omega
    · have hbeq : (x == t) = false := beq_eq_false_iff_ne.mpr hxt
      have e3 : (if (x == t) = true then 1 else 0) = 0 := by rw [hbeq]; simp
      by_cases hxs : x ∈ seen
      · have e1 : ¬((!decide (x ∈ seen)) = true) := by simp [hxs]
        have e2 : ¬((!decide (x ∈ t :: seen)) = true) := by
          simp [List.mem_cons_of_mem t hxs]
        rw [if_neg e1, if_neg e2, e3]
        omega
      · have e1 : (!decide (x ∈ seen)) = true := by simp [hxs]
        have e2 : (!decide (x ∈ t :: seen)) = true := by simp [List.mem_cons, hxt, hxs]
        rw [if_pos e1, if_pos e2, e3, List.length_cons, List.length_cons]
        omega

theorem sum_counts_aux : ∀ (l seen : List String),
    ((dedupFirstAux seen l).map (fun t => l.count t)).sum
      = (l.filter (fun a => !decide (a ∈ seen))).length := by
  intro l
  induction l with
  | nil => intro seen; simp [dedupFirstAux]
  | cons t rest ih =>
    intro seen
    simp only [dedupFirstAux]
    by_cases h : t ∈ seen
    · rw [if_pos h]
      have hmap : (dedupFirstAux seen rest).map (fun s => (t :: rest).count s)
          = (dedupFirstAux seen rest).map (fun s => rest.count s) := by
        refine List.map_congr_left ?_
        intro s hs
        have hst : s ≠ t := fun he => (mem_dedupFirstAux hs).2 (he ▸ h)
        have hbeq : (t == s) = false := beq_eq_false_iff_ne.mpr (fun he => hst he.symm)
        simp [List.count_cons, hbeq]
      rw [hmap, ih seen]
      simp [List.filter_cons, h]
    · rw [if_neg h]
      rw [List.map_cons, List.sum_cons]
      have hcnt : (t :: rest).count t = rest.count t + 1 := by
        simp [List.count_cons]
      have hmap : (dedupFirstAux (t :: seen) rest).map (fun s => (t :: rest).count s)
          = (dedupFirstAux (t :: seen) rest).map (fun s => rest.count s) := by
        refine List.map_congr_left ?_
        intro s hs
        have hst : s ≠ t :=
          fun he => (mem_dedupFirstAux hs).2 (he ▸ List.mem_cons_self t seen)
        have hbeq : (t == s) = false := beq_eq_false_iff_ne.mpr (fun he => hst he.symm)
        simp [List.count_cons, hbeq]
      rw [hcnt, hmap, ih (t :: seen), List.filter_cons]
      have e1 : (!decide (t ∈ seen)) = true := by simp [h]
      rw [if_pos e1, List.length_cons]
      have hsplit := count_filter_split t seen h rest
      omega

theorem tabulate_sum (toks : List String) :
    ((tabulate toks).map Prod.snd).sum = toks.length := by
  unfold tabulate dedupFirst
  rw [List.map_map]
  have h := sum_counts_aux toks []
  simpa [Function.comp] using h

/-- C4: every ranking produced by the top-words computation is sorted by
count in descending order, and entries of equal count appear in the order
of their tokens' first appearance in the concatenated token stream. -/
theorem common_words_ranking_order (table : List CleanedRecord) (n : Nat) :
    List.Chain' (fun p q : String × Nat => q.2 ≤ p.2) (common_words table n)
    ∧ (common_words table n).Pairwise
        (fun p q => p.2 = q.2 →
          (title_tokens table).indexOf p.1 < (title_tokens table).indexOf q.1) := by
  unfold common_words mostCommon
  constructor
  · exact (List.Pairwise.sublist (List.take_sublist _ _) (sortDesc_sorted _)).chain'
  · refine List.Pairwise.sublist (List.take_sublist _ _) ?_
    refine sortDesc_pairwise (fun p q hne heq => absurd heq hne) ?_
    refine List.Pairwise.imp ?_ (tabulate_pairwise_indexOf (title_tokens table))
    intro p q hlt _
    exact hlt

/-- C6: with n at least the number of distinct tokens, the counts in the
full ranking sum to the total token count of the tokenized field. -/
theorem common_words_total_count (table : List CleanedRecord) (n : Nat)
    (h : (dedupFirst (title_tokens table)).length ≤ n) :
    ((common_words table n).map Prod.snd).sum = (title_tokens table).length := by
  unfold common_words mostCommon
  have hlen : (sortDesc (tabulate (title_tokens table))).length
      = (dedupFirst (title_tokens table)).length := by
    rw [(sortDesc_perm _).length_eq]
    simp [tabulate]
  rw [List.take_of_length_le (by rw [hlen]; exact h)]
  rw [((sortDesc_perm (tabulate (title_tokens table))).map Prod.snd).sum_eq]
  exact tabulate_sum _

theorem common_words_total_count_witness :
    (dedupFirst (title_tokens exTable)).length ≤ 9
    ∧ ((common_words exTable 9).map Prod.snd).sum = (title_tokens exTable).length :=
  ⟨by decide, common_words_total_count exTable 9 (by decide)⟩

/-- C3: the top-words computation of the app equals the reference
definition built from the spec (null titles as empty strings, single-space
concatenation, lower-casing, whitespace split, per-token counts, n highest);
an empty table yields an empty ranking, and when n is at least the number
of distinct tokens every distinct token is returned, with no padding. -/
theorem common_words_matches_reference (table : List CleanedRecord) (n : Nat) :
    common_words table n = top_words_spec table n
    ∧ common_words [] n = []
    ∧ ((dedupFirst (title_tokens table)).length ≤ n →
        (common_words table n).length = (dedupFirst (title_tokens table)).length
        ∧ ∀ t : String, (∃ c, (t, c) ∈ common_words table n) ↔ t ∈ title_tokens table) := by
  refine ⟨?_, by cases n <;> rfl, ?_⟩
  · unfold common_words top_words_spec
    rw [title_tokens_eq_reference]
  · intro h
    have hlen : (sortDesc (tabulate (title_tokens table))).length
        = (dedupFirst (title_tokens table)).length := by
      rw [(sortDesc_perm _).length_eq]
      simp [tabulate]
    have htake : common_words table n = sortDesc (tabulate (title_tokens table)) := by
      unfold common_words mostCommon
      exact List.take_of_length_le (by rw [hlen]; exact h)
    refine ⟨by rw [htake, hlen], ?_⟩
    intro t
    rw [htake]
    constructor
    · rintro ⟨c, hc⟩
      have hmem := (sortDesc_perm _).mem_iff.mp hc
      rw [tabulate] at hmem
      obtain ⟨s, hs, he⟩ := List.mem_map.mp hmem
      obtain ⟨rfl, -⟩ := Prod.mk.injEq .. ▸ he
      exact mem_dedupFirst.mp hs
    · intro ht
      refine ⟨(title_tokens table).count t, ?_⟩
      rw [(sortDesc_perm _).mem_iff, tabulate]
      exact List.mem_map.mpr ⟨t, mem_dedupFirst.mpr ht, rfl⟩

theorem common_words_matches_reference_witness :
    common_words exTable 9 = top_words_spec exTable 9
    ∧ ((dedupFirst (title_tokens exTable)).length ≤ 9
       ∧ (common_words exTable 9).length = (dedupFirst (title_tokens exTable)).length) :=
  ⟨(common_words_matches_reference exTable 9).1,
   ⟨by decide, ((common_words_matches_reference exTable 9).2.2 (by decide)).1⟩⟩

end App
